import Mathlib

/-
Verification of the `wxnat` XNAT browser panel (`wxnat/browser.py`).

The development shallowly embeds the panel's data model and the operations
the specification talks about.  GUI widgets are modelled by the data they
hold: a tree item is its XNAT object, its hierarchy level, its
expanded/collapsed flag and its list of child items; dialogs are modelled
by the sequence of answers a user gives; the external `xnatpy` client
library is modelled by the object graph it serves (`XnatObj`) and, for
downloads, by the byte chunks `download_stream` writes.  Exceptions
(`KeyError`, `ValueError`, errors from `disconnect`) are modelled with
`Except`.
-/

namespace Wxnat

/-- The singular XNAT hierarchy level names.  Tree items are created with
the singular form of a child attribute (`catt[:-1]` in
`__expandTreeItem`), and the root is created at level `'project'` in
`__onProject`. -/
inductive Level : Type where
  | project
  | subject
  | experiment
  | assessor
  | scan
  | resource
  | file
deriving DecidableEq

/-- The plural child-attribute names appearing as values in
`XNAT_HIERARCHY` (attributes looked up on xnat objects with `getattr`). -/
inductive Catt : Type where
  | subjects
  | experiments
  | assessors
  | scans
  | resources
  | files
deriving DecidableEq

/-- `catt[:-1]`: the singular level name obtained by dropping the trailing
`s` of a child attribute name. -/
def Catt.singular : Catt → Level
  | .subjects => .subject
  | .experiments => .experiment
  | .assessors => .assessor
  | .scans => .scan
  | .resources => .resource
  | .files => .file

/-- An object of the remote XNAT graph as served by the client library.
`oid` models Python object identity (the library caches objects, so the
same remote object is the same Python object); `id`, `name`, `label`,
`ty` (the `type` attribute), `uri` model the object's string attributes;
`listings` models the child collections: `getattr(obj, catt, None)` is
`none` when the attribute is absent, and otherwise yields the
`.listing` of the collection. -/
inductive XnatObj : Type where
  | mk (oid : Nat) (id : String) (name : String) (label : String)
      (ty : String) (uri : String)
      (listings : List (Catt × List XnatObj)) : XnatObj

def XnatObj.oid : XnatObj → Nat
  | .mk o _ _ _ _ _ _ => o

def XnatObj.id : XnatObj → String
  | .mk _ i _ _ _ _ _ => i

def XnatObj.name : XnatObj → String
  | .mk _ _ n _ _ _ _ => n

def XnatObj.label : XnatObj → String
  | .mk _ _ _ l _ _ _ => l

def XnatObj.ty : XnatObj → String
  | .mk _ _ _ _ t _ _ => t

def XnatObj.uri : XnatObj → String
  | .mk _ _ _ _ _ u _ => u

def XnatObj.listings : XnatObj → List (Catt × List XnatObj)
  | .mk _ _ _ _ _ _ ls => ls

/-- Association-list lookup. -/
def assocLookup : List (Catt × List XnatObj) → Catt → Option (List XnatObj)
  | [], _ => none
  | (k, v) :: rest, c => if k = c then some v else assocLookup rest c

/-- `getattr(obj, catt, None)` followed by `.listing`. -/
def XnatObj.getListing (o : XnatObj) (catt : Catt) : Option (List XnatObj) :=
  assocLookup o.listings catt

/-- All child objects of `o`, over every child attribute. -/
def XnatObj.combined (o : XnatObj) : List XnatObj :=
  (o.listings.map Prod.snd).flatten

/-- `XNAT_HIERARCHY`: the child attributes to traverse below each level.
The source dictionary has no `'file'` key, so looking the hierarchy up
for a file level raises `KeyError` (modelled as `none`).  (The source
dictionary also contains the plural level names as keys, but items only
ever carry singular levels, so those entries are never consulted.) -/
def XNAT_HIERARCHY : Level → Option (List Catt)
  | .project => some [.subjects, .resources]
  | .subject => some [.experiments, .resources]
  | .experiment => some [.assessors, .scans, .resources]
  | .assessor => some [.scans, .resources]
  | .scan => some [.resources]
  | .resource => some [.files]
  | .file => none

/-- `XNAT_NAME_ATT`: the attribute used as the display name of an object
at each level.  The source dictionary has no `'assessor'` key, so the
lookup raises `KeyError` (modelled as `none`) at that level. -/
def XNAT_NAME_ATT : Level → Option (XnatObj → String)
  | .project => some XnatObj.name
  | .subject => some XnatObj.label
  | .experiment => some XnatObj.label
  | .scan => some XnatObj.ty
  | .resource => some XnatObj.label
  | .file => some XnatObj.id
  | .assessor => none

/-- The filter controls of the panel.  `filterType` is the string checked
by `__init__` and `__filterItem`; `subjFilter` and `expFilter` are the
current values of the two filter text fields.  The external matching
functions are part of the state: `reSearchIC pat name` models
`re.search(pat, name, flags=re.IGNORECASE) is not None` and
`fnmatchFn name pat` models `fnmatch.fnmatch(name, pat)`. -/
structure FilterCfg : Type where
  filterType : String
  subjFilter : String
  expFilter : String
  reSearchIC : String → String → Bool
  fnmatchFn : String → String → Bool

/-- `pattern.strip() == ''`: the string is empty or whitespace-only. -/
def stripIsEmpty (s : String) : Bool :=
  s.toList.all Char.isWhitespace

/-- `XNATBrowserPanel.__filterItem`. -/
def filterItem (cfg : FilterCfg) (level : Level) (name : String) : Bool :=
  let pattern :=
    if level = .subject then cfg.subjFilter
    else if level = .experiment then cfg.expFilter
    else ""
  if stripIsEmpty pattern then false
  else if cfg.filterType = "regexp" then !(cfg.reSearchIC pattern name)
  else if cfg.filterType = "glob" then !(cfg.fnmatchFn name pattern)
  else false

/-- The body of the `for child in children.listing` loop of
`__expandTreeItem`, for one child attribute whose singular level is
`lvl`: look up the name attribute (raising `KeyError` when the level has
none), skip children that the filter rejects, and append an item for each
remaining child.  The returned list holds the created `(object, level)`
pairs in creation order. -/
def expandCatt (cfg : FilterCfg) (lvl : Level) :
    List XnatObj → Except Unit (List (XnatObj × Level))
  | [] => .ok []
  | child :: rest =>
    match XNAT_NAME_ATT lvl with
    | none => .error ()
    | some f =>
      if filterItem cfg lvl (f child) then expandCatt cfg lvl rest
      else (expandCatt cfg lvl rest).map (fun tail => (child, lvl) :: tail)

/-- The `for catt in XNAT_HIERARCHY[level]` loop of `__expandTreeItem`:
child attributes missing on the object are skipped; a `KeyError` while
processing one attribute aborts the loop, but the items appended for
earlier attributes persist (the tree control is mutated in place).  The
boolean records whether the exception was raised. -/
def expandGo (cfg : FilterCfg) (obj : XnatObj) :
    List Catt → List (XnatObj × Level) × Bool
  | [] => ([], false)
  | catt :: rest =>
    match obj.getListing catt with
    | none => expandGo cfg obj rest
    | some listing =>
      match expandCatt cfg catt.singular listing with
      | .error _ => ([], true)
      | .ok cs =>
        let r := expandGo cfg obj rest
        (cs ++ r.1, r.2)

/-- `XNATBrowserPanel.__expandTreeItem`: the list of `(object, level)`
pairs appended below the given item, in order, together with a flag
recording whether a `KeyError` escaped (`XNAT_HIERARCHY[level]` for a
file item, or `XNAT_NAME_ATT[catt]` for an assessor listing). -/
def expandTreeItem (cfg : FilterCfg) (obj : XnatObj) (level : Level) :
    List (XnatObj × Level) × Bool :=
  match XNAT_HIERARCHY level with
  | none => ([], true)
  | some catts => expandGo cfg obj catts

/-- An item of the `wx.TreeCtrl` browser: the data stored with the item
(`[obj, level]`), the expanded/collapsed state, and the child items in
order.  Freshly appended items are collapsed and childless. -/
inductive TreeItem : Type where
  | mk (obj : XnatObj) (level : Level) (expanded : Bool)
      (children : List TreeItem) : TreeItem

def TreeItem.obj : TreeItem → XnatObj
  | .mk o _ _ _ => o

def TreeItem.level : TreeItem → Level
  | .mk _ l _ _ => l

def TreeItem.expanded : TreeItem → Bool
  | .mk _ _ e _ => e

def TreeItem.children : TreeItem → List TreeItem
  | .mk _ _ _ cs => cs

/-- A node of the snapshot built by `__getTreeContents`: the tuple
`(obj.id, level, [children], expanded)`. -/
inductive TreeNode : Type where
  | mk (id : String) (level : Level) (children : List TreeNode)
      (expanded : Bool) : TreeNode

def TreeNode.id : TreeNode → String
  | .mk i _ _ _ => i

def TreeNode.level : TreeNode → Level
  | .mk _ l _ _ => l

def TreeNode.children : TreeNode → List TreeNode
  | .mk _ _ cs _ => cs

def TreeNode.expanded : TreeNode → Bool
  | .mk _ _ _ e => e

/-- The `buildTree` closure of `__getTreeContents`: snapshot a tree item
as a `(id, level, children, expanded)` node, recursively. -/
def buildTree : TreeItem → TreeNode
  | .mk obj lvl exp cs =>
    .mk obj.id lvl (cs.attach.map fun c => buildTree c.1) exp
termination_by t => sizeOf t
decreasing_by
  have := List.sizeOf_lt_of_mem c.2
  simp only [TreeItem.mk.sizeOf_spec]
  omega

/-- Every item of the subtree rooted at an item (the item itself first,
then the items of the child subtrees, depth first). -/
def allItems : TreeItem → List TreeItem
  | .mk obj lvl exp cs =>
    .mk obj lvl exp cs :: (cs.attach.map fun c => allItems c.1).flatten
termination_by t => sizeOf t
decreasing_by
  have := List.sizeOf_lt_of_mem c.2
  simp only [TreeItem.mk.sizeOf_spec]
  omega

/-- The `childItems` mapping built by `__expandTreeItem`, as seen by the
`refresh` closure: each created child's id mapped to the position of its
item among the parent's children and to the child object.  `base` is the
number of children the parent already had when the append started. -/
def buildIdx (base : Nat) : List (XnatObj × Level) → List (String × Nat × XnatObj)
  | [] => []
  | (c, _) :: rest => (c.id, base, c) :: buildIdx (base + 1) rest

/-- `childItems.get(cid, (None, None))`: a Python dict lookup, where a
later insertion of the same key overwrites an earlier one. -/
def lookupIdx (idx : List (String × Nat × XnatObj)) (cid : String) :
    Option (Nat × XnatObj) :=
  match idx with
  | [] => none
  | (k, p, o) :: rest =>
    match lookupIdx rest cid with
    | some r => some r
    | none => if k = cid then some (p, o) else none

mutual
/-- The `refresh` closure of `__refreshTree`.  `item` is the current state
of the tree item being refreshed, `node` its node in the snapshot of the
previous tree state, `obj` the xnat object passed by the caller, `foc`
the item currently focused (as the `oid` of its object, `none` when no
focus has been set).  Raised exceptions (`KeyError` out of
`__expandTreeItem`) propagate.  Returns the refreshed item and the
focus. -/
def refresh (cfg : FilterCfg) (selOid : Option Nat) (item : TreeItem)
    (node : TreeNode) (obj : XnatObj) (foc : Option Nat) :
    Except Unit (TreeItem × Option Nat) :=
  match node with
  | .mk _nid lvl cnodes exp =>
    let foc1 := if some obj.oid = selOid then some obj.oid else foc
    if cnodes.isEmpty then .ok (item, foc1)
    else
      let r := expandTreeItem cfg obj lvl
      let base := item.children.length
      let cs := item.children ++ r.1.map fun p => TreeItem.mk p.1 p.2 false []
      if r.2 then .error ()
      else
        match refreshKids cfg selOid cnodes (buildIdx base r.1) cs foc1 with
        | .error e => .error e
        | .ok (cs2, foc2) =>
          .ok (TreeItem.mk item.obj item.level exp cs2, foc2)
termination_by sizeOf node
decreasing_by
  all_goals simp_wf
  all_goals omega

/-- The `for cnode in childNodes` loop of the `refresh` closure: look each
previous child node's id up among the newly created items, and refresh
the matching item (updating it in place) when there is one. -/
def refreshKids (cfg : FilterCfg) (selOid : Option Nat)
    (cnodes : List TreeNode) (idx : List (String × Nat × XnatObj))
    (cs : List TreeItem) (foc : Option Nat) :
    Except Unit (List TreeItem × Option Nat) :=
  match cnodes with
  | [] => .ok (cs, foc)
  | cnode :: rest =>
    match lookupIdx idx cnode.id with
    | none => refreshKids cfg selOid rest idx cs foc
    | some (p, cobj) =>
      match cs[p]? with
      | none => refreshKids cfg selOid rest idx cs foc
      | some citem =>
        match refresh cfg selOid citem cnode cobj foc with
        | .error e => .error e
        | .ok (citem2, foc2) =>
          refreshKids cfg selOid rest idx (cs.set p citem2) foc2
termination_by sizeOf cnodes
decreasing_by
  all_goals simp_wf
  all_goals omega
end

/-- `XNATBrowserPanel.__refreshTree`: snapshot the current tree state,
delete the root's children, and regenerate the tree from the snapshot.
`selOid` is the object of the previously focused item (`selObj`), as
captured from `GetFocusedItem` before the children are deleted. -/
def refreshTree (cfg : FilterCfg) (selOid : Option Nat) (root : TreeItem) :
    Except Unit (TreeItem × Option Nat) :=
  let rootNode := buildTree root
  let root0 := TreeItem.mk root.obj root.level root.expanded []
  refresh cfg selOid root0 rootNode root.obj none

/-- The filterType validation at the top of `XNATBrowserPanel.__init__`:
`None` defaults to `'regexp'`, and anything other than `'regexp'` or
`'glob'` raises `ValueError`.  The result is the value stored in
`self.__filterType`. -/
def panelInitFilterType (filterType : Option String) : Except String String :=
  let ft :=
    match filterType with
    | none => "regexp"
    | some t => t
  if ¬ (ft = "regexp" ∨ ft = "glob") then
    .error ("Unrecognised value for filterType: " ++ ft ++
      ". May be one of 'regexp' or 'glob'")
  else .ok ft

/-- An `xnat.Session`; `disconnect` may raise. -/
structure Session : Type where
  disconnectFails : Bool

def Session.disconnect (s : Session) : Except Unit Unit :=
  if s.disconnectFails then .error () else .ok ()

/-- The panel state touched by `__endSession`: the session, the labels of
the connect button and status text, the status colour, the items of the
project drop-down, the tree browser contents, and the rows of the
information grid. -/
structure PanelState : Type where
  session : Option Session
  connectLabel : String
  statusLabel : String
  statusColour : String
  projectItems : List String
  treeRoot : Option TreeItem
  infoRows : List (String × String)

/-- `XNATBrowserPanel.SessionActive`. -/
def SessionActive (p : PanelState) : Bool :=
  p.session.isSome

/-- `XNATBrowserPanel.__endSession`: disconnect any active session,
swallowing any exception `disconnect` raises, and reset the interface. -/
def endSession (p : PanelState) : PanelState :=
  let p1 :=
    match p.session with
    | some s =>
      match s.disconnect with
      | .ok _ => { p with session := none }
      | .error _ => { p with session := none }
    | none => p
  { p1 with
    connectLabel := "Connect"
    statusLabel := "•"
    statusColour := "#ff0000"
    projectItems := []
    treeRoot := none
    infoRows := [] }

/-- `XNATBrowserPanel.GetSelectedFiles`: the loop over
`browser.GetSelections()`, keeping the objects of the items whose stored
level is `'file'`. -/
def GetSelectedFiles : List (XnatObj × Level) → List XnatObj
  | [] => []
  | (obj, lvl) :: rest =>
    if lvl = .file then obj :: GetSelectedFiles rest
    else GetSelectedFiles rest

/-- `os.path.basename` (posix): the part of the path after the last
slash. -/
def basename (p : String) : String :=
  (p.splitOn "/").getLastD ""

/-- `os.path.join` (posix) for two components. -/
def joinPath (a b : String) : String :=
  if b.startsWith "/" then b
  else if a = "" ∨ a.endsWith "/" then a ++ b
  else a ++ "/" ++ b

/-- `XNATBrowserDialog.__onDownload`: when the directory dialog is
cancelled nothing is downloaded; otherwise `DownloadFile` is called for
each selected file object with destination `op.join(destDir,
op.basename(fobj.id))`.  The result lists the `(file object,
destination)` pairs of those calls, in order. -/
def onDownload (dirChoice : Option String) (sels : List (XnatObj × Level)) :
    List (XnatObj × String) :=
  match dirChoice with
  | none => []
  | some destDir =>
    (GetSelectedFiles sels).map fun f => (f, joinPath destDir (basename f.id))

/-- A user answer to the `File already exists` message dialog of
`DownloadFile`: `overwrite` (`wx.ID_YES`), `skip` (`wx.ID_CANCEL`), or
`newdest` (`wx.ID_NO`) followed by the file dialog's outcome (`none`
when that dialog is cancelled). -/
inductive DlChoice : Type where
  | overwrite
  | skip
  | newdest (path : Option String)

/-- The outcome of a `DownloadFile` call: `skipped` (returned without
opening or writing a file), `wrote dest content` (opened `dest` and the
client library streamed `content` into it), or `blocked` (the modal
dialog is still waiting for an answer the user never gave). -/
inductive DlResult : Type where
  | skipped
  | wrote (dest : String) (content : List Nat)
  | blocked
deriving DecidableEq

/-- `fobj.download_stream(f, ...)`: the client library writes its chunks
to the open file in order.  `h` is the bytes already written to the
handle (the file was just opened with mode `'wb'`, so it starts
empty). -/
def download_stream (chunks : List (List Nat)) (h : List Nat) : List Nat :=
  match chunks with
  | [] => h
  | c :: rest => download_stream rest (h ++ c)

/-- The `while True` prompt loop of `DownloadFile`, entered when the
destination already exists.  Overwrite breaks out and writes to the
current destination; skip returns; choosing a new name breaks out and
writes to the chosen path; cancelling the file dialog shows the first
dialog again. -/
def promptLoop (dest : String) (chunks : List (List Nat)) :
    List DlChoice → DlResult
  | [] => .blocked
  | choice :: rest =>
    match choice with
    | .overwrite => .wrote dest (download_stream chunks [])
    | .skip => .skipped
    | .newdest none => promptLoop dest chunks rest
    | .newdest (some path) => .wrote path (download_stream chunks [])

/-- `XNATBrowserPanel.DownloadFile`, with the file system modelled by the
`fsExists` predicate, the user's dialog answers by `responses`, and the
client library's `download_stream` output by `chunks`. -/
def DownloadFile (fsExists : String → Bool) (dest : String)
    (chunks : List (List Nat)) (responses : List DlChoice) : DlResult :=
  if fsExists dest then promptLoop dest chunks responses
  else .wrote dest (download_stream chunks [])

/-- What `__onTreeActivate` does to the activated item: post a
`XNATFileSelectEvent` (with the file object's `uri` as its `path`),
leave the tree unchanged, or retrieve and append child items. -/
inductive ActivateResult : Type where
  | fileEvent (path : String)
  | unchanged
  | expandedItem (created : List (XnatObj × Level)) (raised : Bool)

/-- `XNATBrowserPanel.__onTreeActivate` on the activated item. -/
def onTreeActivate (cfg : FilterCfg) (item : TreeItem) : ActivateResult :=
  if item.level = .file then .fileEvent item.obj.uri
  else if 0 < item.children.length then .unchanged
  else
    let r := expandTreeItem cfg item.obj item.level
    .expandedItem r.1 r.2

/-! ### Helper lemmas -/

theorem expandCatt_ok_mem {cfg : FilterCfg} {lvl : Level} {listing : List XnatObj}
    {cs : List (XnatObj × Level)} (h : expandCatt cfg lvl listing = .ok cs) :
    ∀ p ∈ cs, p.2 = lvl ∧ p.1 ∈ listing ∧
      ∃ f, XNAT_NAME_ATT lvl = some f ∧ filterItem cfg lvl (f p.1) = false := by
  induction listing generalizing cs with
  | nil =>
    simp only [expandCatt, Except.ok.injEq] at h
    subst h
    simp
  | cons child rest ih =>
    rw [expandCatt] at h
    split at h
    · exact absurd h (by simp)
    · rename_i f hna
      split at h
      · intro p hp
        obtain ⟨h1, h2, h3⟩ := ih h p hp
        exact ⟨h1, List.mem_cons_of_mem _ h2, h3⟩
      · rename_i hf
        cases hrec : expandCatt cfg lvl rest with
        | error e => rw [hrec] at h; exact absurd h (by simp [Except.map])
        | ok tail =>
          rw [hrec] at h
          simp only [Except.map, Except.ok.injEq] at h
          subst h
          intro p hp
          rcases List.mem_cons.mp hp with hp | hp
          · subst hp
            exact ⟨rfl, List.mem_cons_self _ _,
              f, hna, by simpa using hf⟩
          · obtain ⟨h1, h2, h3⟩ := ih hrec p hp
            exact ⟨h1, List.mem_cons_of_mem _ h2, h3⟩

theorem expandGo_mem {cfg : FilterCfg} {obj : XnatObj} {catts : List Catt}
    {p : XnatObj × Level} (h : p ∈ (expandGo cfg obj catts).1) :
    ∃ catt ∈ catts, ∃ listing cs, obj.getListing catt = some listing ∧
      expandCatt cfg catt.singular listing = .ok cs ∧ p ∈ cs := by
  induction catts with
  | nil => simp [expandGo] at h
  | cons catt rest ih =>
    rw [expandGo] at h
    split at h
    · obtain ⟨c, hc, r⟩ := ih h
      exact ⟨c, List.mem_cons_of_mem _ hc, r⟩
    · rename_i listing hl
      split at h
      · simp at h
      · rename_i cs he
        simp only [List.mem_append] at h
        rcases h with h | h
        · exact ⟨catt, List.mem_cons_self _ _, listing, cs, hl, he, h⟩
        · obtain ⟨c, hc, r⟩ := ih h
          exact ⟨c, List.mem_cons_of_mem _ hc, r⟩

theorem assocLookup_mem {ls : List (Catt × List XnatObj)} {catt : Catt}
    {l : List XnatObj} (h : assocLookup ls catt = some l) : (catt, l) ∈ ls := by
  induction ls with
  | nil => simp [assocLookup] at h
  | cons pr rest ih =>
    obtain ⟨k, v⟩ := pr
    rw [assocLookup] at h
    split at h
    · rename_i hk
      simp only [Option.some.injEq] at h
      subst h
      subst hk
      exact List.mem_cons_self _ _
    · exact List.mem_cons_of_mem _ (ih h)

theorem getListing_subset_combined {o : XnatObj} {catt : Catt}
    {l : List XnatObj} (h : o.getListing catt = some l) : l ⊆ o.combined := by
  have hmem : (catt, l) ∈ o.listings := assocLookup_mem h
  intro x hx
  unfold XnatObj.combined
  rw [List.mem_flatten]
  exact ⟨l, List.mem_map.mpr ⟨(catt, l), hmem, rfl⟩, hx⟩

theorem expandTreeItem_mem {cfg : FilterCfg} {obj : XnatObj} {lvl : Level}
    {p : XnatObj × Level} (h : p ∈ (expandTreeItem cfg obj lvl).1) :
    p.1 ∈ obj.combined ∧
      ∃ f, XNAT_NAME_ATT p.2 = some f ∧ filterItem cfg p.2 (f p.1) = false := by
  rw [expandTreeItem] at h
  cases hh : XNAT_HIERARCHY lvl with
  | none => rw [hh] at h; simp at h
  | some catts =>
    rw [hh] at h
    obtain ⟨catt, _, listing, cs, hl, he, hp⟩ := expandGo_mem h
    obtain ⟨h1, h2, h3⟩ := expandCatt_ok_mem he p hp
    exact ⟨getListing_subset_combined hl h2, h1 ▸ h3⟩

/-! ### C2: filtering applies to subjects and experiments only -/

/-- The filter pattern the claim calls "the corresponding filter pattern"
for a level (meaningful for `subject` and `experiment` only). -/
def claimPatternOf (cfg : FilterCfg) (level : Level) : String :=
  if level = Level.subject then cfg.subjFilter else cfg.expFilter

/-- Modelled from the claim text of C2 (not from the source): an item is
filtered iff its level is subject or experiment, the corresponding
pattern is not empty or whitespace-only, and the name fails to match it
(regexp: no case-insensitive search match; glob: fnmatch fails). -/
def filterItemClaimed (cfg : FilterCfg) (level : Level) (name : String) : Prop :=
  (level = Level.subject ∨ level = Level.experiment) ∧
  stripIsEmpty (claimPatternOf cfg level) = false ∧
  (if cfg.filterType = "regexp"
   then cfg.reSearchIC (claimPatternOf cfg level) name = false
   else cfg.fnmatchFn name (claimPatternOf cfg level) = false)

/-- C2: `__filterItem` returns `True` if and only if the level is
`'subject'` or `'experiment'`, the corresponding filter pattern is not
empty or whitespace-only, and the name fails to match it (for filterType
`'regexp'`: no case-insensitive `re.search` match; for `'glob'`:
`fnmatch` fails); items at every other level are never filtered. -/
theorem filterItem_iff_claimed (cfg : FilterCfg)
    (hft : cfg.filterType = "regexp" ∨ cfg.filterType = "glob")
    (level : Level) (name : String) :
    filterItem cfg level name = true ↔ filterItemClaimed cfg level name := by
  have hempty : stripIsEmpty "" = true := by decide
  unfold filterItem filterItemClaimed claimPatternOf
  rcases hft with hft | hft <;>
    cases level <;>
      simp [hft, hempty]

/-- Witness for C2 at a concrete configuration, level and name. -/
theorem filterItem_iff_claimed_witness :
    filterItem ⟨"regexp", "pat", "", fun _ _ => false, fun _ _ => false⟩
        Level.subject "abc" = true ↔
      filterItemClaimed ⟨"regexp", "pat", "", fun _ _ => false, fun _ _ => false⟩
        Level.subject "abc" :=
  filterItem_iff_claimed _ (Or.inl rfl) Level.subject "abc"

/-! ### C9: constructor argument validation -/

/-- C9: `__init__` raises `ValueError` iff `filterType` is neither
`None`, `'regexp'` nor `'glob'`; `None` defaults to `'regexp'`, so
filtering then takes the case-insensitive regular-expression branch of
`__filterItem`. -/
theorem panelInitFilterType_spec :
    (∀ ft : Option String,
      (∃ e, panelInitFilterType ft = .error e) ↔
        (ft ≠ none ∧ ft ≠ some "regexp" ∧ ft ≠ some "glob")) ∧
    panelInitFilterType none = .ok "regexp" ∧
    (∀ (subj exp : String) (re fn : String → String → Bool) (name : String),
      stripIsEmpty subj = false →
      filterItem ⟨"regexp", subj, exp, re, fn⟩ Level.subject name =
        !(re subj name)) := by
  refine ⟨?_, rfl, ?_⟩
  · intro ft
    cases ft with
    | none => simp [panelInitFilterType]
    | some t =>
      by_cases h1 : t = "regexp"
      · simp [panelInitFilterType, h1]
      · by_cases h2 : t = "glob"
        · simp [panelInitFilterType, h2]
        · simp [panelInitFilterType, h1, h2]
  · intro subj exp re fn name hs
    simp [filterItem, hs]

/-- Witness for C9: a bogus filterType is rejected, `None` defaults to
regexp matching. -/
theorem panelInitFilterType_spec_witness :
    (∃ e, panelInitFilterType (some "bogus") = .error e) ∧
    panelInitFilterType none = .ok "regexp" ∧
    filterItem ⟨"regexp", "x", "", fun _ _ => true, fun _ _ => false⟩
        Level.subject "n" = !(true : Bool) :=
  ⟨(panelInitFilterType_spec.1 (some "bogus")).mpr (by simp),
    panelInitFilterType_spec.2.1,
    panelInitFilterType_spec.2.2 "x" "" (fun _ _ => true) (fun _ _ => false)
      "n" (by decide)⟩

/-! ### C10: session teardown is total -/

/-- C10: `__endSession` always leaves the panel with no active session,
the project drop-down cleared, the tree browser emptied and the
information grid cleared, even when `disconnect()` raises (the exception
is swallowed). -/
theorem endSession_total (p : PanelState) :
    SessionActive (endSession p) = false ∧
    (endSession p).session = none ∧
    (endSession p).projectItems = [] ∧
    (endSession p).treeRoot = none ∧
    (endSession p).infoRows = [] := by
  cases hs : p.session with
  | none => simp [endSession, SessionActive, hs]
  | some s =>
    cases hd : s.disconnect <;> simp [endSession, SessionActive, hs, hd]

/-! ### C4: download prompt flow -/

/-- C4: when the destination exists the user is prompted: Skip returns
without opening or writing a file, Overwrite writes the original
destination, a new name writes the chosen path, and cancelling the file
dialog re-shows the first prompt; when the destination does not exist no
prompt is shown (no answer is consumed) and the file is written
directly. -/
theorem DownloadFile_prompt_flow (fsExists : String → Bool) (dest : String)
    (chunks : List (List Nat)) (rs : List DlChoice) :
    (fsExists dest = false →
      DownloadFile fsExists dest chunks rs =
        .wrote dest (download_stream chunks [])) ∧
    (fsExists dest = true →
      DownloadFile fsExists dest chunks (.skip :: rs) = .skipped ∧
      DownloadFile fsExists dest chunks (.overwrite :: rs) =
        .wrote dest (download_stream chunks []) ∧
      (∀ p, DownloadFile fsExists dest chunks (.newdest (some p) :: rs) =
        .wrote p (download_stream chunks [])) ∧
      DownloadFile fsExists dest chunks (.newdest none :: rs) =
        DownloadFile fsExists dest chunks rs) := by
  constructor
  · intro h
    simp [DownloadFile, h]
  · intro h
    refine ⟨by simp [DownloadFile, promptLoop, h], by simp [DownloadFile, promptLoop, h],
      fun p => by simp [DownloadFile, promptLoop, h], by simp [DownloadFile, promptLoop, h]⟩

/-- Witness for C4 on a concrete file system and answer list. -/
theorem DownloadFile_prompt_flow_witness :
    DownloadFile (fun _ => true) "dest" [[7]] (.skip :: []) = .skipped ∧
    DownloadFile (fun _ => true) "dest" [[7]] (.overwrite :: []) =
      .wrote "dest" (download_stream [[7]] []) ∧
    DownloadFile (fun _ => false) "other" [[7]] [] =
      .wrote "other" (download_stream [[7]] []) :=
  ⟨((DownloadFile_prompt_flow (fun _ => true) "dest" [[7]] []).2 rfl).1,
    ((DownloadFile_prompt_flow (fun _ => true) "dest" [[7]] []).2 rfl).2.1,
    (DownloadFile_prompt_flow (fun _ => false) "other" [[7]] []).1 rfl⟩

/-! ### C6: no data processing on retrieved files -/

theorem download_stream_eq (chunks : List (List Nat)) (h : List Nat) :
    download_stream chunks h = h ++ chunks.flatten := by
  induction chunks generalizing h with
  | nil => simp [download_stream]
  | cons c rest ih => simp [download_stream, ih]

theorem promptLoop_wrote {dest : String} {chunks : List (List Nat)}
    {rs : List DlChoice} {d : String} {c : List Nat}
    (h : promptLoop dest chunks rs = .wrote d c) :
    c = download_stream chunks [] := by
  induction rs with
  | nil => simp [promptLoop] at h
  | cons choice rest ih =>
    cases choice with
    | overwrite =>
      simp only [promptLoop, DlResult.wrote.injEq] at h
      exact h.2.symm
    | skip => simp [promptLoop] at h
    | newdest p =>
      cases p with
      | none =>
        rw [promptLoop] at h
        exact ih h
      | some q =>
        simp only [promptLoop, DlResult.wrote.injEq] at h
        exact h.2.symm

/-- C6: whatever prompt path is taken, the bytes `DownloadFile` writes to
the destination are exactly the concatenation of the chunks the client
library's `download_stream` produces — the panel applies no
transformation. -/
theorem DownloadFile_no_processing (fsExists : String → Bool) (dest : String)
    (chunks : List (List Nat)) (rs : List DlChoice) (d : String) (c : List Nat)
    (h : DownloadFile fsExists dest chunks rs = .wrote d c) :
    c = chunks.flatten := by
  rw [DownloadFile] at h
  split at h
  · rw [promptLoop_wrote h, download_stream_eq]
    simp
  · simp only [DlResult.wrote.injEq] at h
    rw [← h.2, download_stream_eq]
    simp

/-- Witness for C6 at a concrete download. -/
theorem DownloadFile_no_processing_witness :
    download_stream [[1, 2], [3]] [] = [[1, 2], [3]].flatten :=
  DownloadFile_no_processing (fun _ => false) "f" [[1, 2], [3]] [] "f"
    (download_stream [[1, 2], [3]] []) rfl

/-! ### C7: downloading selected files -/

/-- C7: `GetSelectedFiles` returns exactly the objects of the selected
items at level `'file'`, and the dialog's Download button, once a
directory is chosen, calls `DownloadFile` for each such object with
destination `op.join(destDir, op.basename(fobj.id))`. -/
theorem GetSelectedFiles_onDownload_spec (sels : List (XnatObj × Level))
    (dir : String) :
    GetSelectedFiles sels = (sels.filter fun p => p.2 = Level.file).map Prod.fst ∧
    (∀ f, f ∈ GetSelectedFiles sels ↔ (f, Level.file) ∈ sels) ∧
    onDownload none sels = [] ∧
    (∀ f d, (f, d) ∈ onDownload (some dir) sels ↔
      ((f, Level.file) ∈ sels ∧ d = joinPath dir (basename f.id))) := by
  have heq : GetSelectedFiles sels =
      (sels.filter fun p => p.2 = Level.file).map Prod.fst := by
    induction sels with
    | nil => simp [GetSelectedFiles]
    | cons p rest ih =>
      obtain ⟨obj, lvl⟩ := p
      by_cases hl : lvl = Level.file
      · subst hl
        simp [GetSelectedFiles, List.filter_cons, ih]
      · simp [GetSelectedFiles, List.filter_cons, hl, ih]
  have hmem : ∀ f, f ∈ GetSelectedFiles sels ↔ (f, Level.file) ∈ sels := by
    intro f
    rw [heq]
    simp only [List.mem_map, List.mem_filter]
    constructor
    · rintro ⟨⟨o, l⟩, ⟨hm, hf⟩, rfl⟩
      simp only [decide_eq_true_eq] at hf
      subst hf
      exact hm
    · intro hm
      exact ⟨(f, Level.file), ⟨hm, by simp⟩, rfl⟩
  refine ⟨heq, hmem, rfl, ?_⟩
  intro f d
  simp only [onDownload, List.mem_map]
  constructor
  · rintro ⟨x, hx, hxe⟩
    rw [Prod.mk.injEq] at hxe
    obtain ⟨rfl, rfl⟩ := hxe
    exact ⟨(hmem x).mp hx, rfl⟩
  · rintro ⟨hm, rfl⟩
    exact ⟨f, (hmem f).mpr hm, rfl⟩

/-- Witness for C7 on a concrete selection. -/
theorem GetSelectedFiles_onDownload_spec_witness :
    (XnatObj.mk 1 "a/b.nii" "" "" "" "" []) ∈
      GetSelectedFiles
        [(XnatObj.mk 0 "s1" "" "" "" "" [], Level.subject),
         (XnatObj.mk 1 "a/b.nii" "" "" "" "" [], Level.file)] ↔
      ((XnatObj.mk 1 "a/b.nii" "" "" "" "" [], Level.file) ∈
        [(XnatObj.mk 0 "s1" "" "" "" "" [], Level.subject),
         (XnatObj.mk 1 "a/b.nii" "" "" "" "" [], Level.file)]) :=
  (GetSelectedFiles_onDownload_spec
    [(XnatObj.mk 0 "s1" "" "" "" "" [], Level.subject),
     (XnatObj.mk 1 "a/b.nii" "" "" "" "" [], Level.file)] "/dl").2.1
    (XnatObj.mk 1 "a/b.nii" "" "" "" "" [])

/-! ### C5: lazy expansion on activation -/

/-- C5: activating a non-file item that already has a child leaves the
tree unchanged (children are retrieved and appended only on the first
activation); activating a file item never adds children and instead
posts a `XNATFileSelectEvent` carrying the file object's `uri`. -/
theorem onTreeActivate_spec (cfg : FilterCfg) (item : TreeItem) :
    (item.level = Level.file →
      onTreeActivate cfg item = .fileEvent item.obj.uri) ∧
    (item.level ≠ Level.file → item.children ≠ [] →
      onTreeActivate cfg item = .unchanged) ∧
    (item.level ≠ Level.file → item.children = [] →
      onTreeActivate cfg item =
        .expandedItem (expandTreeItem cfg item.obj item.level).1
          (expandTreeItem cfg item.obj item.level).2) := by
  refine ⟨fun hf => ?_, fun hnf hc => ?_, fun hnf hc => ?_⟩
  · simp [onTreeActivate, hf]
  · have : 0 < item.children.length := List.length_pos.mpr hc
    simp [onTreeActivate, hnf, this]
  · simp [onTreeActivate, hnf, hc]

/-- Witness for C5 on concrete items. -/
theorem onTreeActivate_spec_witness :
    onTreeActivate
        ⟨"regexp", "", "", fun _ _ => true, fun _ _ => true⟩
        (TreeItem.mk (XnatObj.mk 0 "f1" "" "" "" "/data/f1" []) Level.file
          false []) =
      .fileEvent (XnatObj.mk 0 "f1" "" "" "" "/data/f1" []).uri ∧
    onTreeActivate
        ⟨"regexp", "", "", fun _ _ => true, fun _ _ => true⟩
        (TreeItem.mk (XnatObj.mk 1 "p" "" "" "" "" []) Level.project false
          [TreeItem.mk (XnatObj.mk 2 "s" "" "" "" "" []) Level.subject
            false []]) =
      .unchanged :=
  ⟨(onTreeActivate_spec _ _).1 rfl,
    (onTreeActivate_spec _ _).2.1 (by decide) (by simp [TreeItem.children])⟩

/-! ### C3: the browsed hierarchy -/

/-- Modelled from the claim text of C3 (not from the source): the child
levels the claim allows below each level of a tree node.  The claim
asserts tree nodes only ever exist at the six listed levels, so it
assigns no children to an assessor parent. -/
def specChildLevels : Level → List Level
  | .project => [.subject, .resource]
  | .subject => [.experiment, .resource]
  | .experiment => [.scan, .resource]
  | .scan => [.resource]
  | .resource => [.file]
  | .file => []
  | .assessor => []

/-- C3: expanding a tree node (whose level is one of the six levels that
occur in the tree, i.e. not `assessor`) only ever creates child items at
the levels the claim's hierarchy table allows, and no item at level
`assessor` is ever created at all: a non-empty assessor listing makes
`__expandTreeItem` raise `KeyError` on the `XNAT_NAME_ATT` lookup before
any assessor item is appended. -/
theorem expandTreeItem_hierarchy (cfg : FilterCfg) (obj : XnatObj)
    (level : Level) (h : level ≠ Level.assessor) :
    (∀ p ∈ (expandTreeItem cfg obj level).1, p.2 ∈ specChildLevels level) ∧
    (∀ (lvl2 : Level) (p : XnatObj × Level),
      p ∈ (expandTreeItem cfg obj lvl2).1 → p.2 ≠ Level.assessor) := by
  have hass : ∀ (lvl2 : Level) (p : XnatObj × Level),
      p ∈ (expandTreeItem cfg obj lvl2).1 → p.2 ≠ Level.assessor := by
    intro lvl2 p hp hcon
    obtain ⟨_, f, hf, _⟩ := expandTreeItem_mem hp
    rw [hcon] at hf
    simp [XNAT_NAME_ATT] at hf
  refine ⟨?_, hass⟩
  intro p hp
  have hne := hass level p hp
  rw [expandTreeItem] at hp
  cases level with
  | assessor => exact absurd rfl h
  | file => simp [XNAT_HIERARCHY] at hp
  | project =>
    simp only [XNAT_HIERARCHY] at hp
    obtain ⟨catt, hcatt, listing, cs, _, he, hpc⟩ := expandGo_mem hp
    have := (expandCatt_ok_mem he p hpc).1
    fin_cases hcatt <;> simp_all [Catt.singular, specChildLevels]
  | subject =>
    simp only [XNAT_HIERARCHY] at hp
    obtain ⟨catt, hcatt, listing, cs, _, he, hpc⟩ := expandGo_mem hp
    have := (expandCatt_ok_mem he p hpc).1
    fin_cases hcatt <;> simp_all [Catt.singular, specChildLevels]
  | experiment =>
    simp only [XNAT_HIERARCHY] at hp
    obtain ⟨catt, hcatt, listing, cs, _, he, hpc⟩ := expandGo_mem hp
    have := (expandCatt_ok_mem he p hpc).1
    fin_cases hcatt <;> simp_all [Catt.singular, specChildLevels]
  | scan =>
    simp only [XNAT_HIERARCHY] at hp
    obtain ⟨catt, hcatt, listing, cs, _, he, hpc⟩ := expandGo_mem hp
    have := (expandCatt_ok_mem he p hpc).1
    fin_cases hcatt <;> simp_all [Catt.singular, specChildLevels]
  | resource =>
    simp only [XNAT_HIERARCHY] at hp
    obtain ⟨catt, hcatt, listing, cs, _, he, hpc⟩ := expandGo_mem hp
    have := (expandCatt_ok_mem he p hpc).1
    fin_cases hcatt <;> simp_all [Catt.singular, specChildLevels]

/-- Witness for C3 at a concrete project object with one subject. -/
theorem expandTreeItem_hierarchy_witness :
    Level.subject ∈ specChildLevels Level.project :=
  (expandTreeItem_hierarchy
    ⟨"regexp", "", "", fun _ _ => true, fun _ _ => true⟩
    (XnatObj.mk 0 "p" "proj" "" "" ""
      [(Catt.subjects, [XnatObj.mk 1 "s" "" "subj" "" "" []])])
    Level.project (by decide)).1
    (XnatObj.mk 1 "s" "" "subj" "" "" [], Level.subject)
    (by simp [expandTreeItem, expandGo, expandCatt, filterItem, stripIsEmpty,
      XNAT_HIERARCHY, XNAT_NAME_ATT, XnatObj.getListing, assocLookup,
      Catt.singular, XnatObj.label, XnatObj.listings, Except.map])

/-! ### C8: termination of the tree walks -/

theorem buildTree_def (obj : XnatObj) (lvl : Level) (e : Bool)
    (cs : List TreeItem) :
    buildTree (.mk obj lvl e cs) = .mk obj.id lvl (cs.map buildTree) e := by
  rw [buildTree]
  congr 1
  exact List.attach_map_val cs buildTree

theorem sizeOf_lt_of_mem_children {c t : TreeItem} (h : c ∈ t.children) :
    sizeOf c < sizeOf t := by
  obtain ⟨obj, lvl, e, cs⟩ := t
  simp only [TreeItem.children] at h
  have := List.sizeOf_lt_of_mem h
  simp only [TreeItem.mk.sizeOf_spec]
  omega

theorem sizeOf_lt_of_mem_node_children {c n : TreeNode} (h : c ∈ n.children) :
    sizeOf c < sizeOf n := by
  obtain ⟨i, lvl, cs, e⟩ := n
  simp only [TreeNode.children] at h
  have := List.sizeOf_lt_of_mem h
  simp only [TreeNode.mk.sizeOf_spec]
  omega

/-- C8: the snapshot walk (`buildTree`) and the restore walk (`refresh`)
are terminating recursions: both are total functions in this development
(their defining equations hold for every input), and every recursive
call descends to a child of the current node, whose size is strictly
smaller. -/
theorem treeWalks_terminate :
    (∀ (obj : XnatObj) (lvl : Level) (e : Bool) (cs : List TreeItem),
      buildTree (.mk obj lvl e cs) = .mk obj.id lvl (cs.map buildTree) e) ∧
    (∀ (t : TreeItem), ∀ c ∈ t.children, sizeOf c < sizeOf t) ∧
    (∀ (n : TreeNode), ∀ c ∈ n.children, sizeOf c < sizeOf n) ∧
    (∀ (cfg : FilterCfg) (so : Option Nat) (item : TreeItem) (nid : String)
      (lvl : Level) (e : Bool) (obj : XnatObj) (foc : Option Nat),
      refresh cfg so item (.mk nid lvl [] e) obj foc =
        .ok (item, if some obj.oid = so then some obj.oid else foc)) :=
  ⟨buildTree_def, fun _ _ => sizeOf_lt_of_mem_children,
    fun _ _ => sizeOf_lt_of_mem_node_children,
    fun cfg so item nid lvl e obj foc => by rw [refresh]; rfl⟩

/-- Witness for C8: the descent facts at a concrete two-node tree and
snapshot. -/
theorem treeWalks_terminate_witness :
    sizeOf (TreeItem.mk (XnatObj.mk 1 "c" "" "" "" "" []) Level.subject
        false []) <
      sizeOf (TreeItem.mk (XnatObj.mk 0 "r" "" "" "" "" []) Level.project
        true
        [TreeItem.mk (XnatObj.mk 1 "c" "" "" "" "" []) Level.subject
          false []]) ∧
    sizeOf (TreeNode.mk "c" Level.subject [] false) <
      sizeOf (TreeNode.mk "r" Level.project
        [TreeNode.mk "c" Level.subject [] false] true) :=
  ⟨treeWalks_terminate.2.1 _ _ (by simp [TreeItem.children]),
    treeWalks_terminate.2.2.1 _ _ (by simp [TreeNode.children])⟩

/-! ### C1: infrastructure — the object graph and tree well-formedness -/

theorem sizeOf_lt_of_mem_combined {c o : XnatObj} (h : c ∈ o.combined) :
    sizeOf c < sizeOf o := by
  obtain ⟨oid, i, n, lb, ty, u, ls⟩ := o
  simp only [XnatObj.combined, XnatObj.listings] at h
  rw [List.mem_flatten] at h
  obtain ⟨l, hl, hc⟩ := h
  rw [List.mem_map] at hl
  obtain ⟨pr, hpr, rfl⟩ := hl
  have h1 := List.sizeOf_lt_of_mem hc
  have h2 := List.sizeOf_lt_of_mem hpr
  obtain ⟨k, v⟩ := pr
  simp only [XnatObj.mk.sizeOf_spec, Prod.mk.sizeOf_spec] at h1 h2 ⊢
  omega

/-- The object together with everything reachable from it through child
listings. -/
def descList : XnatObj → List XnatObj
  | o => o :: (o.combined.attach.map fun c => descList c.1).flatten
termination_by o => sizeOf o
decreasing_by
  exact sizeOf_lt_of_mem_combined c.2

theorem self_mem_descList (o : XnatObj) : o ∈ descList o := by
  rw [descList]
  exact List.mem_cons_self _ _

theorem descList_subset_of_mem_combined {a b : XnatObj}
    (h : b ∈ a.combined) : ∀ x ∈ descList b, x ∈ descList a := by
  intro x hx
  rw [descList]
  refine List.mem_cons_of_mem _ (List.mem_flatten.mpr ⟨descList b, ?_, hx⟩)
  rw [List.mem_map]
  exact ⟨⟨b, h⟩, List.mem_attach _ _, rfl⟩

theorem sizeOf_XnatObj_pos (o : XnatObj) : 0 < sizeOf o := by
  obtain ⟨o1, i1, n1, l1, t1, u1, ls1⟩ := o
  simp only [XnatObj.mk.sizeOf_spec]
  omega

theorem descList_trans {r a b : XnatObj} (ha : a ∈ descList r)
    (hb : b ∈ a.combined) : b ∈ descList r := by
  suffices H : ∀ (s : Nat) (r : XnatObj), sizeOf r ≤ s →
      ∀ a ∈ descList r, b ∈ a.combined → b ∈ descList r from
    H (sizeOf r) r le_rfl a ha hb
  intro s
  induction s with
  | zero =>
    intro r hr
    exact absurd hr (by have := sizeOf_XnatObj_pos r; omega)
  | succ s ih =>
    intro r hr a ha hb2
    rw [descList] at ha
    rcases List.mem_cons.mp ha with rfl | ha
    · exact descList_subset_of_mem_combined hb2 _ (self_mem_descList b)
    · obtain ⟨l, hl, hal⟩ := List.mem_flatten.mp ha
      obtain ⟨⟨c, hc⟩, _, rfl⟩ := List.mem_map.mp hl
      have hcs : sizeOf c ≤ s := by
        have := sizeOf_lt_of_mem_combined hc
        omega
      exact descList_subset_of_mem_combined hc _ (ih c hcs a hal hb2)

/-- Well-formedness of the remote object graph below `r`: every object's
children (over all child attributes) carry distinct XNAT ids; object
identity (`oid`) determines the object; an object is listed by at most
one parent; and the root object is not listed as anyone's child. -/
def GoodGraph (r : XnatObj) : Prop :=
  (∀ a ∈ descList r, (a.combined.map XnatObj.id).Nodup) ∧
  (∀ a ∈ descList r, ∀ b ∈ descList r, a.oid = b.oid → a = b) ∧
  (∀ p ∈ descList r, ∀ q ∈ descList r, ∀ c ∈ p.combined, ∀ c2 ∈ q.combined,
      c.oid = c2.oid → p = q) ∧
  (∀ p ∈ descList r, ∀ c ∈ p.combined, c.oid ≠ r.oid)

/-- Local well-formedness of a tree item as reachable panel states have
it: a childless item is collapsed (freshly appended items are collapsed,
and the tree control only expands items with children), and sibling
items carry distinct XNAT ids. -/
def WfLocal (t : TreeItem) : Prop :=
  (t.children = [] → t.expanded = false) ∧
  (t.children.map fun c => c.obj.id).Nodup

def WfTree (root : TreeItem) : Prop := ∀ i ∈ allItems root, WfLocal i

/-- The tree shows the object graph: the children of an item hold objects
listed by the item's object. -/
def ConsistentTree (root : TreeItem) : Prop :=
  ∀ i ∈ allItems root, ∀ c ∈ i.children, c.obj ∈ i.obj.combined

/-- No object is shown at two different places of the tree. -/
def NoDupObjs (root : TreeItem) : Prop :=
  ∀ a ∈ allItems root, ∀ b ∈ allItems root, a.obj.oid = b.obj.oid → a = b

/-- The object of the previously focused item is present in the given
tree (identified by Python object identity, i.e. by `oid`). -/
def OldPresent (root : TreeItem) (o : Nat) : Prop :=
  ∃ i ∈ allItems root, i.obj.oid = o

/-- The item passes the current filter: its display name (per
`XNAT_NAME_ATT`) is not filtered at its level. -/
def UnfilteredItem (cfg : FilterCfg) (t : TreeItem) : Prop :=
  ∃ f, XNAT_NAME_ATT t.level = some f ∧ filterItem cfg t.level (f t.obj) = false

/-- Every proper descendant of `t` passes the current filter. -/
def SubUnfiltered (cfg : FilterCfg) (t : TreeItem) : Prop :=
  ∀ c ∈ t.children, ∀ i ∈ allItems c, UnfilteredItem cfg i

/-- The rebuilt tree preserves the snapshot's expansion state: the item
has the expanded/collapsed state recorded in the snapshot node, and
recursively so for every child item whose XNAT id a snapshot child node
carries. -/
inductive Preserves : TreeNode → TreeItem → Prop where
  | intro : ∀ (n : TreeNode) (t : TreeItem),
      t.expanded = n.expanded →
      (∀ cn ∈ n.children, ∀ ct ∈ t.children, ct.obj.id = cn.id →
        Preserves cn ct) →
      Preserves n t

/-- A freshly appended tree item for a created `(object, level)` pair:
collapsed, no children. -/
def freshLeaf (p : XnatObj × Level) : TreeItem := .mk p.1 p.2 false []

theorem sizeOf_TreeItem_pos (t : TreeItem) : 0 < sizeOf t := by
  obtain ⟨o, l, e, cs⟩ := t
  simp only [TreeItem.mk.sizeOf_spec]
  omega

theorem allItems_eq (t : TreeItem) :
    allItems t = t :: (t.children.map allItems).flatten := by
  obtain ⟨o, l, e, cs⟩ := t
  rw [allItems]
  simp only [TreeItem.children]
  congr 2
  exact List.attach_map_val cs allItems

theorem self_mem_allItems (t : TreeItem) : t ∈ allItems t := by
  rw [allItems_eq]
  exact List.mem_cons_self _ _

theorem mem_allItems_cases {t i : TreeItem} (h : i ∈ allItems t) :
    i = t ∨ ∃ c ∈ t.children, i ∈ allItems c := by
  rw [allItems_eq] at h
  rcases List.mem_cons.mp h with rfl | h
  · exact Or.inl rfl
  · obtain ⟨l, hl, hil⟩ := List.mem_flatten.mp h
    obtain ⟨c, hc, rfl⟩ := List.mem_map.mp hl
    exact Or.inr ⟨c, hc, hil⟩

theorem mem_allItems_of_child {t c i : TreeItem} (hc : c ∈ t.children)
    (hi : i ∈ allItems c) : i ∈ allItems t := by
  rw [allItems_eq]
  exact List.mem_cons_of_mem _
    (List.mem_flatten.mpr ⟨allItems c, List.mem_map.mpr ⟨c, hc, rfl⟩, hi⟩)

theorem allItems_subset_of_mem {root j : TreeItem} (hj : j ∈ allItems root) :
    ∀ i ∈ allItems j, i ∈ allItems root := by
  suffices H : ∀ (s : Nat) (t : TreeItem), sizeOf t ≤ s →
      ∀ j ∈ allItems t, ∀ i ∈ allItems j, i ∈ allItems t from
    H (sizeOf root) root le_rfl j hj
  intro s
  induction s with
  | zero =>
    intro t ht
    exact absurd ht (by have := sizeOf_TreeItem_pos t; omega)
  | succ s ih =>
    intro t ht j hj i hi
    rcases mem_allItems_cases hj with rfl | ⟨c, hc, hjc⟩
    · exact hi
    · have hcs : sizeOf c ≤ s := by
        have := sizeOf_lt_of_mem_children hc
        omega
      exact mem_allItems_of_child hc (ih c hcs j hjc i hi)

theorem child_mem_allItems {root j c : TreeItem} (hj : j ∈ allItems root)
    (hc : c ∈ j.children) : c ∈ allItems root :=
  allItems_subset_of_mem hj c (mem_allItems_of_child hc (self_mem_allItems c))

theorem mem_allItems_parent {root i : TreeItem} (h : i ∈ allItems root) :
    i = root ∨ ∃ par ∈ allItems root, i ∈ par.children := by
  suffices H : ∀ (s : Nat) (t : TreeItem), sizeOf t ≤ s →
      ∀ i ∈ allItems t, i = t ∨ ∃ par ∈ allItems t, i ∈ par.children from
    H (sizeOf root) root le_rfl i h
  intro s
  induction s with
  | zero =>
    intro t ht
    exact absurd ht (by have := sizeOf_TreeItem_pos t; omega)
  | succ s ih =>
    intro t ht i hi
    rcases mem_allItems_cases hi with rfl | ⟨c, hc, hic⟩
    · exact Or.inl rfl
    · have hcs : sizeOf c ≤ s := by
        have := sizeOf_lt_of_mem_children hc
        omega
      rcases ih c hcs i hic with rfl | ⟨par, hpar, hip⟩
      · exact Or.inr ⟨t, self_mem_allItems t, hc⟩
      · exact Or.inr ⟨par,
          allItems_subset_of_mem (child_mem_allItems (self_mem_allItems t) hc)
            par hpar, hip⟩

theorem obj_mem_descList {root : TreeItem} (hcons : ConsistentTree root) :
    ∀ i ∈ allItems root, i.obj ∈ descList root.obj := by
  suffices H : ∀ (s : Nat) (t : TreeItem), sizeOf t ≤ s →
      (∀ j ∈ allItems t, ∀ c ∈ j.children, c.obj ∈ j.obj.combined) →
      ∀ i ∈ allItems t, i.obj ∈ descList t.obj from
    H (sizeOf root) root le_rfl hcons
  intro s
  induction s with
  | zero =>
    intro t ht
    exact absurd ht (by have := sizeOf_TreeItem_pos t; omega)
  | succ s ih =>
    intro t ht hcn i hi
    rcases mem_allItems_cases hi with rfl | ⟨c, hc, hic⟩
    · exact self_mem_descList _
    · have hcs : sizeOf c ≤ s := by
        have := sizeOf_lt_of_mem_children hc
        omega
      have hcsub : ∀ j ∈ allItems c, ∀ d ∈ j.children, d.obj ∈ j.obj.combined :=
        fun j hj => hcn j (mem_allItems_of_child hc hj)
      have h1 : i.obj ∈ descList c.obj := ih c hcs hcsub i hic
      have h2 : c.obj ∈ t.obj.combined := hcn t (self_mem_allItems t) c hc
      exact descList_subset_of_mem_combined h2 _ h1

/-! #### Distinctness of the ids of newly created items -/

theorem flatten_nodup_disjoint {α : Type} {LL : List (List α)}
    (h : LL.flatten.Nodup) {i j : Nat} (hi : i < LL.length)
    (hj : j < LL.length) (hij : i ≠ j) :
    ∀ a ∈ LL[i], a ∉ LL[j] := by
  have hp := (List.nodup_flatten.mp h).2
  rcases Nat.lt_or_ge i j with hlt | hge
  · exact List.pairwise_iff_getElem.mp hp i j hi hj hlt
  · have hlt : j < i := by omega
    intro a hai haj
    exact List.pairwise_iff_getElem.mp hp j i hj hi hlt haj hai

theorem combined_map_id_eq (o : XnatObj) :
    o.combined.map XnatObj.id =
      (o.listings.map fun pr => pr.2.map XnatObj.id).flatten := by
  unfold XnatObj.combined
  rw [List.map_flatten, List.map_map]
  rfl

theorem listing_ids_nodup {o : XnatObj}
    (hN : (o.combined.map XnatObj.id).Nodup) {catt : Catt}
    {l : List XnatObj} (h : o.getListing catt = some l) :
    (l.map XnatObj.id).Nodup := by
  rw [combined_map_id_eq] at hN
  have hmem : (catt, l) ∈ o.listings := assocLookup_mem h
  exact (List.nodup_flatten.mp hN).1 (l.map XnatObj.id)
    (List.mem_map.mpr ⟨(catt, l), hmem, rfl⟩)

theorem combined_entry_disjoint {o : XnatObj}
    (hN : (o.combined.map XnatObj.id).Nodup)
    {c1 c2 : Catt} {l1 l2 : List XnatObj}
    (h1 : o.getListing c1 = some l1) (h2 : o.getListing c2 = some l2)
    (hne : c1 ≠ c2) :
    ∀ a ∈ l1.map XnatObj.id, a ∉ l2.map XnatObj.id := by
  rw [combined_map_id_eq] at hN
  obtain ⟨i, hi, hgi⟩ := List.mem_iff_getElem.mp (assocLookup_mem h1)
  obtain ⟨j, hj, hgj⟩ := List.mem_iff_getElem.mp (assocLookup_mem h2)
  have hij : i ≠ j := by
    intro hcon
    subst hcon
    exact hne (Prod.ext_iff.mp (hgi.symm.trans hgj)).1
  have hi2 : i < (o.listings.map fun pr => pr.2.map XnatObj.id).length := by
    simpa using hi
  have hj2 : j < (o.listings.map fun pr => pr.2.map XnatObj.id).length := by
    simpa using hj
  have := flatten_nodup_disjoint hN hi2 hj2 hij
  simpa [List.getElem_map, hgi, hgj] using this

theorem expandCatt_fst_sublist {cfg : FilterCfg} {lvl : Level}
    {listing : List XnatObj} {cs : List (XnatObj × Level)}
    (h : expandCatt cfg lvl listing = .ok cs) :
    (cs.map Prod.fst).Sublist listing := by
  induction listing generalizing cs with
  | nil =>
    simp only [expandCatt, Except.ok.injEq] at h
    subst h
    simp
  | cons child rest ih =>
    rw [expandCatt] at h
    split at h
    · exact absurd h (by simp)
    · split at h
      · exact (ih h).cons child
      · cases hrec : expandCatt cfg lvl rest with
        | error e => rw [hrec] at h; exact absurd h (by simp [Except.map])
        | ok tail =>
          rw [hrec] at h
          simp only [Except.map, Except.ok.injEq] at h
          subst h
          simpa using (ih hrec).cons₂ child

theorem expandGo_ids_nodup {cfg : FilterCfg} {obj : XnatObj}
    {catts : List Catt} (hN : (obj.combined.map XnatObj.id).Nodup)
    (hcN : catts.Nodup) :
    (((expandGo cfg obj catts).1).map fun p => p.1.id).Nodup := by
  induction catts with
  | nil => simp [expandGo]
  | cons catt rest ih =>
    cases hl : obj.getListing catt with
    | none =>
      simp only [expandGo, hl]
      exact ih hcN.of_cons
    | some listing =>
      cases he : expandCatt cfg catt.singular listing with
      | error e => simp [expandGo, hl, he]
      | ok cs =>
        simp only [expandGo, hl, he]
        show ((cs ++ (expandGo cfg obj rest).1).map fun p => p.1.id).Nodup
        simp only [List.map_append]
        rw [List.nodup_append]
        have hsub : (cs.map fun p => p.1.id).Sublist (listing.map XnatObj.id) := by
          have := (expandCatt_fst_sublist he).map XnatObj.id
          simpa [List.map_map, Function.comp] using this
        refine ⟨hsub.nodup (listing_ids_nodup hN hl), ih hcN.of_cons, ?_⟩
        intro a ha hb
        have ha2 : a ∈ listing.map XnatObj.id := hsub.subset ha
        obtain ⟨p, hp, rfl⟩ := List.mem_map.mp hb
        obtain ⟨catt2, hc2, l2, cs2, hl2, he2, hpc2⟩ := expandGo_mem hp
        have hne : catt ≠ catt2 := by
          intro hcon
          subst hcon
          exact (List.nodup_cons.mp hcN).1 hc2
        have hb2 : p.1.id ∈ l2.map XnatObj.id :=
          List.mem_map.mpr ⟨p.1, (expandCatt_ok_mem he2 p hpc2).2.1, rfl⟩
        exact combined_entry_disjoint hN hl hl2 hne _ ha2 hb2

theorem expandTreeItem_ids_nodup {cfg : FilterCfg} {obj : XnatObj}
    {lvl : Level} (hN : (obj.combined.map XnatObj.id).Nodup) :
    (((expandTreeItem cfg obj lvl).1).map fun p => p.1.id).Nodup := by
  rw [expandTreeItem]
  cases lvl <;>
    first
      | (simp only [XNAT_HIERARCHY]; exact expandGo_ids_nodup hN (by decide))
      | simp [XNAT_HIERARCHY]

theorem freshLeaf_obj (x : XnatObj × Level) : (freshLeaf x).obj = x.1 := rfl

theorem freshLeaf_level (x : XnatObj × Level) : (freshLeaf x).level = x.2 := rfl

theorem freshLeaf_expanded (x : XnatObj × Level) :
    (freshLeaf x).expanded = false := rfl

theorem freshLeaf_children (x : XnatObj × Level) :
    (freshLeaf x).children = [] := rfl

theorem allItems_freshLeaf (x : XnatObj × Level) :
    allItems (freshLeaf x) = [freshLeaf x] := by
  rw [allItems_eq, freshLeaf_children]
  simp

theorem buildTree_children (t : TreeItem) :
    (buildTree t).children = t.children.map buildTree := by
  obtain ⟨o, l, e, cs⟩ := t
  rw [buildTree_def]
  simp [TreeNode.children, TreeItem.children]

theorem buildTree_id (t : TreeItem) : (buildTree t).id = t.obj.id := by
  obtain ⟨o, l, e, cs⟩ := t
  rw [buildTree_def]
  simp [TreeNode.id, TreeItem.obj]

theorem buildTree_expanded (t : TreeItem) :
    (buildTree t).expanded = t.expanded := by
  obtain ⟨o, l, e, cs⟩ := t
  rw [buildTree_def]
  simp [TreeNode.expanded, TreeItem.expanded]

theorem created_pos_unique {created : List (XnatObj × Level)}
    (hN : (created.map fun x => x.1.id).Nodup) {i j : Nat}
    {x y : XnatObj × Level} (hi : created[i]? = some x)
    (hj : created[j]? = some y) (hxy : x.1.id = y.1.id) : i = j := by
  obtain ⟨hi1, hi2⟩ := List.getElem?_eq_some.mp hi
  obtain ⟨hj1, hj2⟩ := List.getElem?_eq_some.mp hj
  have hi3 : i < (created.map fun x => x.1.id).length := by simpa using hi1
  have hj3 : j < (created.map fun x => x.1.id).length := by simpa using hj1
  have he : (created.map fun x => x.1.id)[i] = (created.map fun x => x.1.id)[j] := by
    simp only [List.getElem_map]
    simp only [hi2, hj2]
    exact hxy
  exact (List.Nodup.getElem_inj_iff hN).mp he

theorem lookupIdx_buildIdx_some {created : List (XnatObj × Level)}
    {base : Nat} {cid : String} {p : Nat} {o : XnatObj}
    (h : lookupIdx (buildIdx base created) cid = some (p, o)) :
    ∃ j x, created[j]? = some x ∧ p = base + j ∧ x.1 = o ∧ o.id = cid := by
  induction created generalizing base with
  | nil => simp [buildIdx, lookupIdx] at h
  | cons hd rest ih =>
    obtain ⟨c, lv⟩ := hd
    rw [buildIdx, lookupIdx] at h
    cases hrec : lookupIdx (buildIdx (base + 1) rest) cid with
    | some r =>
      rw [hrec] at h
      simp only [Option.some.injEq] at h
      subst h
      obtain ⟨j, x, hx, hp, ho, hid⟩ := ih hrec
      exact ⟨j + 1, x, by simpa using hx, by omega, ho, hid⟩
    | none =>
      rw [hrec] at h
      by_cases hk : c.id = cid
      · rw [if_pos hk] at h
        simp only [Option.some.injEq, Prod.mk.injEq] at h
        obtain ⟨h1, h2⟩ := h
        subst h2
        exact ⟨0, (c, lv), by simp, by omega, rfl, hk⟩
      · rw [if_neg hk] at h
        simp at h

theorem lookupIdx_buildIdx_none {created : List (XnatObj × Level)}
    {base : Nat} {cid : String}
    (h : lookupIdx (buildIdx base created) cid = none) :
    ∀ x ∈ created, x.1.id ≠ cid := by
  induction created generalizing base with
  | nil => simp
  | cons hd rest ih =>
    obtain ⟨c, lv⟩ := hd
    rw [buildIdx, lookupIdx] at h
    cases hrec : lookupIdx (buildIdx (base + 1) rest) cid with
    | some r => rw [hrec] at h; simp at h
    | none =>
      rw [hrec] at h
      by_cases hk : c.id = cid
      · rw [if_pos hk] at h
        simp at h
      · intro x hx
        rcases List.mem_cons.mp hx with rfl | hx
        · exact hk
        · exact ih hrec x hx

/-- The invariant proof for the `for cnode in childNodes` loop of the
`refresh` closure.  `created` is the list of pairs `__expandTreeItem`
appended below the current item, `csuffix` the still unprocessed previous
child nodes, `cs` the current state of the children.  `HREF` is the
induction hypothesis for recursive `refresh` calls on child nodes. -/
theorem refreshKids_spec
    (cfg : FilterCfg) (selOid : Option Nat) (root : TreeItem)
    (hcons : ConsistentTree root) (hwf : WfTree root)
    (hgood : GoodGraph root.obj)
    (oldIt : TreeItem) (obj : XnatObj)
    (holdIt : oldIt ∈ allItems root) (hobj : oldIt.obj = obj)
    (hdesc : obj ∈ descList root.obj)
    (created : List (XnatObj × Level))
    (hcr : ∀ x ∈ created, x.1 ∈ obj.combined)
    (hcrN : (created.map fun x => x.1.id).Nodup)
    (HREF : ∀ cn ∈ (buildTree oldIt).children,
      ∀ (item : TreeItem) (obj2 : XnatObj) (foc0 : Option Nat)
        (r : TreeItem) (foc1 : Option Nat),
      refresh cfg selOid item cn obj2 foc0 = .ok (r, foc1) →
      item.children = [] →
      (cn.children = [] → item.expanded = cn.expanded) →
      (∃ old2 ∈ allItems root, cn = buildTree old2 ∧ old2.obj = obj2) →
      item.obj = obj2 →
      obj2 ∈ descList root.obj →
      (r.obj = item.obj ∧ r.level = item.level ∧ Preserves cn r ∧
        SubUnfiltered cfg r ∧
        (foc1 = foc0 ∨ foc1 = selOid) ∧
        (∀ o, selOid = some o → OldPresent root o →
          (∃ i ∈ allItems r, i.obj.oid = o) → foc1 = some o))) :
    ∀ (csuffix : List TreeNode) (cs : List TreeItem) (foc : Option Nat)
      (cs2 : List TreeItem) (foc2 : Option Nat),
    refreshKids cfg selOid csuffix (buildIdx 0 created) cs foc =
      .ok (cs2, foc2) →
    cs.length = created.length →
    (csuffix.map TreeNode.id).Nodup →
    (∀ cn ∈ csuffix, cn ∈ (buildTree oldIt).children) →
    (∀ (j : Nat) (x : XnatObj × Level), created[j]? = some x → (∃ cn ∈ csuffix, cn.id = x.1.id) →
      cs[j]? = some (freshLeaf x)) →
    (cs2.length = cs.length ∧
     (∀ (j : Nat) (x : XnatObj × Level), created[j]? = some x → (∀ cn ∈ csuffix, cn.id ≠ x.1.id) →
        cs2[j]? = cs[j]?) ∧
     (∀ (j : Nat) (x : XnatObj × Level), created[j]? = some x → ∀ cn ∈ csuffix, cn.id = x.1.id →
        ∃ t, cs2[j]? = some t ∧ t.obj = x.1 ∧ t.level = x.2 ∧
          SubUnfiltered cfg t ∧ Preserves cn t ∧
          (∀ o, selOid = some o → OldPresent root o →
            (∃ i ∈ allItems t, i.obj.oid = o) → foc2 = some o)) ∧
     (foc2 = foc ∨ foc2 = selOid) ∧
     (∀ o, selOid = some o → foc = some o → foc2 = some o)) := by
  intro csuffix
  induction csuffix with
  | nil =>
    intro cs foc cs2 foc2 h0 hlen hcsN hsub hfresh
    rw [refreshKids] at h0
    simp only [Except.ok.injEq, Prod.mk.injEq] at h0
    obtain ⟨rfl, rfl⟩ := h0
    exact ⟨rfl, fun j x _ _ => rfl, fun j x _ cn hcn => absurd hcn (by simp),
      Or.inl rfl, fun o _ h => h⟩
  | cons cn0 rest ih =>
    intro cs foc cs2 foc2 h0 hlen hcsN hsub hfresh
    rw [List.map_cons] at hcsN
    have hhead : cn0.id ∉ rest.map TreeNode.id := (List.nodup_cons.mp hcsN).1
    have hcsN2 : (rest.map TreeNode.id).Nodup := (List.nodup_cons.mp hcsN).2
    have hsub2 : ∀ cn ∈ rest, cn ∈ (buildTree oldIt).children :=
      fun cn hcn => hsub cn (List.mem_cons_of_mem _ hcn)
    cases hlook : lookupIdx (buildIdx 0 created) cn0.id with
    | none =>
      have hnone := lookupIdx_buildIdx_none hlook
      rw [refreshKids] at h0
      rw [hlook] at h0
      have hfresh2 : ∀ (j : Nat) (x : XnatObj × Level), created[j]? = some x →
          (∃ cn ∈ rest, cn.id = x.1.id) → cs[j]? = some (freshLeaf x) :=
        fun j x hx hex => hfresh j x hx
          ⟨hex.choose, List.mem_cons_of_mem _ hex.choose_spec.1, hex.choose_spec.2⟩
      obtain ⟨L1, L2, L3, L4, L5⟩ :=
        ih cs foc cs2 foc2 h0 hlen hcsN2 hsub2 hfresh2
      refine ⟨L1, ?_, ?_, L4, L5⟩
      · intro j x hx hno
        exact L2 j x hx fun cn hcn => hno cn (List.mem_cons_of_mem _ hcn)
      · intro j x hx cn hcn hid
        rcases List.mem_cons.mp hcn with rfl | hcn
        · exact absurd hid.symm (hnone x (List.getElem?_mem hx))
        · exact L3 j x hx cn hcn hid
    | some pr =>
      obtain ⟨p, cobj⟩ := pr
      obtain ⟨j0, x0, hx0, hp, hx0o, hoid⟩ := lookupIdx_buildIdx_some hlook
      have hpj : j0 = p := by omega
      subst hpj
      have hidx0 : cn0.id = x0.1.id := by rw [hx0o, hoid]
      have hcs0 : cs[j0]? = some (freshLeaf x0) :=
        hfresh j0 x0 hx0 ⟨cn0, List.mem_cons_self _ _, hidx0⟩
      rw [refreshKids] at h0
      rw [hlook] at h0
      dsimp only at h0
      rw [hcs0] at h0
      dsimp only at h0
      cases href : refresh cfg selOid (freshLeaf x0) cn0 cobj foc with
      | error e =>
        rw [href] at h0
        simp at h0
      | ok pr2 =>
        obtain ⟨citem2, focmid⟩ := pr2
        rw [href] at h0
        have hcn0mem : cn0 ∈ (buildTree oldIt).children :=
          hsub cn0 (List.mem_cons_self _ _)
        obtain ⟨oc, hoc, hocbt⟩ : ∃ oc ∈ oldIt.children, cn0 = buildTree oc := by
          rw [buildTree_children] at hcn0mem
          obtain ⟨oc, hoc2, he⟩ := List.mem_map.mp hcn0mem
          exact ⟨oc, hoc2, he.symm⟩
        have hocAll : oc ∈ allItems root := child_mem_allItems holdIt hoc
        have hx0mem : x0 ∈ created := List.getElem?_mem hx0
        have hcobjcomb : cobj ∈ obj.combined := hx0o ▸ hcr x0 hx0mem
        have hocobj : oc.obj = cobj := by
          have h1 : oc.obj ∈ obj.combined := by
            have h2 := hcons oldIt holdIt oc hoc
            rw [hobj] at h2
            exact h2
          have hid2 : oc.obj.id = cobj.id := by
            have h3 := buildTree_id oc
            rw [← hocbt] at h3
            rw [← h3, hoid]
          exact List.inj_on_of_nodup_map (hgood.1 obj hdesc) h1 hcobjcomb hid2
        have hcn0wf : cn0.children = [] →
            (freshLeaf x0).expanded = cn0.expanded := by
          intro he
          rw [freshLeaf_expanded, hocbt, buildTree_expanded]
          rw [hocbt, buildTree_children] at he
          exact ((hwf oc hocAll).1 (List.map_eq_nil.mp he)).symm
        have hdesc2 : cobj ∈ descList root.obj := descList_trans hdesc hcobjcomb
        obtain ⟨R1, R2, R3, R4, R5, R6⟩ :=
          HREF cn0 hcn0mem (freshLeaf x0) cobj foc citem2 focmid href
            (freshLeaf_children x0) hcn0wf ⟨oc, hocAll, hocbt, hocobj⟩
            (by rw [freshLeaf_obj]; exact hx0o) hdesc2
        have hlen2 : (cs.set j0 citem2).length = created.length := by
          rw [List.length_set]
          exact hlen
        have hfresh2 : ∀ (j : Nat) (x : XnatObj × Level), created[j]? = some x →
            (∃ cn ∈ rest, cn.id = x.1.id) →
            (cs.set j0 citem2)[j]? = some (freshLeaf x) := by
          rintro j x hx ⟨cn, hcn, hid⟩
          have hjne : j0 ≠ j := by
            intro hcon
            subst hcon
            have hxx : x = x0 := by
              rw [hx0] at hx
              exact (Option.some.inj hx).symm
            subst hxx
            exact hhead (List.mem_map.mpr ⟨cn, hcn, by rw [hid, ← hidx0]⟩)
          rw [List.getElem?_set_ne hjne]
          exact hfresh j x hx ⟨cn, List.mem_cons_of_mem _ hcn, hid⟩
        obtain ⟨L1, L2, L3, L4, L5⟩ :=
          ih (cs.set j0 citem2) focmid cs2 foc2 h0 hlen2 hcsN2 hsub2 hfresh2
        have hj0lt : j0 < cs.length := by
          have := (List.getElem?_eq_some.mp hx0).1
          omega
        refine ⟨by rw [L1, List.length_set], ?_, ?_, ?_, ?_⟩
        · intro j x hx hno
          have hjne : j0 ≠ j := by
            intro hcon
            subst hcon
            have hxx : x = x0 := by
              rw [hx0] at hx
              exact (Option.some.inj hx).symm
            subst hxx
            exact hno cn0 (List.mem_cons_self _ _) hidx0
          rw [L2 j x hx fun cn hcn => hno cn (List.mem_cons_of_mem _ hcn),
            List.getElem?_set_ne hjne]
        · intro j x hx cn hcn hid
          rcases List.mem_cons.mp hcn with rfl | hcn
          · have hje : j = j0 :=
              created_pos_unique hcrN hx hx0 (by rw [← hid, hidx0])
            subst hje
            have hxx : x = x0 := by
              rw [hx0] at hx
              exact (Option.some.inj hx).symm
            subst hxx
            have hnoRest : ∀ cn2 ∈ rest, cn2.id ≠ x.1.id := by
              intro cn2 hcn2 hcon
              exact hhead (List.mem_map.mpr ⟨cn2, hcn2, by rw [hcon, ← hidx0]⟩)
            have hstab : cs2[j]? = (cs.set j citem2)[j]? := L2 j x hx hnoRest
            have hset : (cs.set j citem2)[j]? = some citem2 :=
              List.getElem?_set_eq hj0lt
            refine ⟨citem2, by rw [hstab, hset], ?_, ?_, R4, R3, ?_⟩
            · rw [R1, freshLeaf_obj]
            · rw [R2, freshLeaf_level]
            · intro o hsel hop hin
              exact L5 o hsel (R6 o hsel hop hin)
          · have hjne : j0 ≠ j := by
              intro hcon
              subst hcon
              have hxx : x = x0 := by
                rw [hx0] at hx
                exact (Option.some.inj hx).symm
              subst hxx
              exact hhead (List.mem_map.mpr ⟨cn, hcn, by rw [hid, ← hidx0]⟩)
            exact L3 j x hx cn hcn hid
        · rcases R5 with h5 | h5 <;> rcases L4 with h6 | h6
          · exact Or.inl (h6.trans h5)
          · exact Or.inr h6
          · exact Or.inr (h6.trans h5)
          · exact Or.inr h6
        · intro o hsel hfoc
          refine L5 o hsel ?_
          rcases R5 with h5 | h5
          · rw [h5, hfoc]
          · rw [h5, hsel]

theorem mem_getElem? {α : Type} {l : List α} {a : α} (h : a ∈ l) :
    ∃ i : Nat, l[i]? = some a := by
  obtain ⟨i, hi, hg⟩ := List.mem_iff_getElem.mp h
  exact ⟨i, by rw [List.getElem?_eq_getElem hi, hg]⟩

/-- The induction proof for the `refresh` closure of `__refreshTree`,
phrased with an explicit size bound for the strong induction.  The
hypotheses say: the previous tree (`root`) is well formed, consistent with
the well-formed object graph, and shows no object twice; the call
refreshes a cleared item (`item.children = []`) against the snapshot of a
previous tree item it corresponds to.  The conclusion: the rebuilt
subtree keeps the item's object and level, `Preserves` the snapshot's
expansion states, shows only items that pass the current filter, and the
focus ends on the previously focused object whenever that object is
anywhere in the rebuilt subtree. -/
theorem refresh_spec
    (cfg : FilterCfg) (selOid : Option Nat) (root : TreeItem)
    (hnd : NoDupObjs root) (hcons : ConsistentTree root) (hwf : WfTree root)
    (hgood : GoodGraph root.obj) :
    ∀ (N : Nat) (node : TreeNode), sizeOf node < N →
    ∀ (item : TreeItem) (obj : XnatObj) (foc : Option Nat) (r : TreeItem)
      (foc2 : Option Nat),
    refresh cfg selOid item node obj foc = .ok (r, foc2) →
    item.children = [] →
    (node.children = [] → item.expanded = node.expanded) →
    (∃ oldIt ∈ allItems root, node = buildTree oldIt ∧ oldIt.obj = obj) →
    item.obj = obj →
    obj ∈ descList root.obj →
    (r.obj = item.obj ∧ r.level = item.level ∧ Preserves node r ∧
      SubUnfiltered cfg r ∧ (foc2 = foc ∨ foc2 = selOid) ∧
      (∀ o, selOid = some o → OldPresent root o →
        (∃ i ∈ allItems r, i.obj.oid = o) → foc2 = some o)) := by
  intro N
  induction N with
  | zero =>
    intro node h
    omega
  | succ N ihN =>
    intro node hN item obj foc r foc2 h0 hch hexp hold hiobj hdesc
    obtain ⟨oldIt, holdIt, hbt, hobj⟩ := hold
    obtain ⟨nid, lvl, cnodes, exp⟩ := node
    have hnch : TreeNode.children (.mk nid lvl cnodes exp) = cnodes := rfl
    have hnexp : TreeNode.expanded (.mk nid lvl cnodes exp) = exp := rfl
    rw [refresh] at h0
    by_cases hemp : cnodes.isEmpty
    · have hcn : cnodes = [] := List.isEmpty_iff.mp hemp
      rw [if_pos hemp] at h0
      simp only [Except.ok.injEq, Prod.mk.injEq] at h0
      obtain ⟨rfl, rfl⟩ := h0
      refine ⟨rfl, rfl, ?_, ?_, ?_, ?_⟩
      · refine Preserves.intro _ _ ?_ ?_
        · rw [hnexp] at hexp ⊢
          exact hexp (by rw [hnch, hcn])
        · intro cn hcn2
          rw [hnch, hcn] at hcn2
          simp at hcn2
      · intro c hc
        rw [hch] at hc
        simp at hc
      · by_cases hsel : some obj.oid = selOid
        · rw [if_pos hsel]
          exact Or.inr hsel
        · rw [if_neg hsel]
          exact Or.inl rfl
      · intro o hsel hop hin
        obtain ⟨i, hi, hio⟩ := hin
        rw [allItems_eq, hch] at hi
        simp only [List.map_nil, List.flatten_nil] at hi
        rcases List.mem_cons.mp hi with rfl | hi
        · have : some obj.oid = selOid := by rw [hsel, ← hio, hiobj]
          rw [if_pos this, this, hsel]
        · simp at hi
    · rw [if_neg hemp] at h0
      dsimp only at h0
      rw [hch] at h0
      simp only [List.nil_append, List.length_nil] at h0
      have hcnodes : cnodes = oldIt.children.map buildTree := by
        have := congrArg TreeNode.children hbt
        rw [hnch, buildTree_children] at this
        exact this
      have hcrN : (((expandTreeItem cfg obj lvl).1).map fun x => x.1.id).Nodup :=
        expandTreeItem_ids_nodup (hgood.1 obj hdesc)
      have hcsN : (cnodes.map TreeNode.id).Nodup := by
        have h1 : cnodes.map TreeNode.id =
            oldIt.children.map fun c => c.obj.id := by
          rw [hcnodes, List.map_map]
          exact List.map_congr_left fun c _ => buildTree_id c
        rw [h1]
        exact (hwf oldIt holdIt).2
      cases herr : (expandTreeItem cfg obj lvl).2 with
      | true =>
        rw [herr] at h0
        simp at h0
      | false =>
        rw [herr] at h0
        rw [if_neg (by decide : ¬(false = true))] at h0
        cases hkids : refreshKids cfg selOid cnodes
            (buildIdx 0 (expandTreeItem cfg obj lvl).1)
            ((expandTreeItem cfg obj lvl).1.map fun p =>
              TreeItem.mk p.1 p.2 false [])
            (if some obj.oid = selOid then some obj.oid else foc) with
        | error e =>
          rw [hkids] at h0
          simp at h0
        | ok pr =>
          obtain ⟨cs2, foc3⟩ := pr
          rw [hkids] at h0
          simp only [Except.ok.injEq, Prod.mk.injEq] at h0
          obtain ⟨h0r, h0f⟩ := h0
          obtain ⟨L1, L2, L3, L4, L5⟩ :=
            refreshKids_spec cfg selOid root hcons hwf hgood oldIt obj holdIt
              hobj hdesc (expandTreeItem cfg obj lvl).1
              (fun x hx => (expandTreeItem_mem hx).1) hcrN
              (fun cn hcn => by
                have hsz : sizeOf cn < N := by
                  have h2 : cn ∈ TreeNode.children (.mk nid lvl cnodes exp) := by
                    rw [hnch]
                    rw [← hbt] at hcn
                    exact hcn
                  have h3 := sizeOf_lt_of_mem_node_children h2
                  omega
                exact ihN cn hsz)
              cnodes _ _ cs2 foc3 hkids (by simp) hcsN
              (fun cn hcn => by rw [← hbt]; exact hcn)
              (fun j x hx _ => by
                rw [List.getElem?_map, hx]
                rfl)
          -- shorthand facts about positions of the rebuilt children
          have hposfacts : ∀ ct ∈ cs2, ∃ (j : Nat) (x : XnatObj × Level),
              (expandTreeItem cfg obj lvl).1[j]? = some x ∧
              cs2[j]? = some ct ∧
              ((∀ cn ∈ cnodes, cn.id ≠ x.1.id) → ct = freshLeaf x) := by
            intro ct hct
            obtain ⟨j, hj⟩ := mem_getElem? hct
            have hjlen : j < (expandTreeItem cfg obj lvl).1.length := by
              have h4 := (List.getElem?_eq_some.mp hj).1
              have h5 : cs2.length = (expandTreeItem cfg obj lvl).1.length := by
                rw [L1]
                simp
              omega
            refine ⟨j, (expandTreeItem cfg obj lvl).1[j],
              List.getElem?_eq_getElem hjlen, hj, ?_⟩
            intro hno
            have h6 := L2 j _ (List.getElem?_eq_getElem hjlen) hno
            rw [hj, List.getElem?_map, List.getElem?_eq_getElem hjlen] at h6
            simp only [Option.map_some'] at h6
            exact Option.some.inj h6
          have hunf : ∀ (x : XnatObj × Level), x ∈ (expandTreeItem cfg obj lvl).1 →
              ∀ (t : TreeItem), t.obj = x.1 → t.level = x.2 →
              UnfilteredItem cfg t := by
            intro x hx t hto htl
            obtain ⟨-, f, hf, hff⟩ := expandTreeItem_mem hx
            exact ⟨f, by rw [htl]; exact hf, by rw [htl, hto]; exact hff⟩
          subst h0r
          subst h0f
          refine ⟨rfl, rfl, ?_, ?_, ?_, ?_⟩
          · refine Preserves.intro _ _ (by rw [hnexp]; rfl) ?_
            intro cn hcn ct hct hcid
            rw [hnch] at hcn
            have hct2 : ct ∈ cs2 := hct
            obtain ⟨j, x, hx, hj, hfreshj⟩ := hposfacts ct hct2
            by_cases hm : ∃ cn2 ∈ cnodes, cn2.id = x.1.id
            · obtain ⟨cn2, hcn2, hid2⟩ := hm
              obtain ⟨t, ht, tobj, tlvl, tsub, tpres, tfoc⟩ :=
                L3 j x hx cn2 hcn2 hid2
              rw [hj] at ht
              obtain rfl := Option.some.inj ht
              have : cn = cn2 := by
                refine List.inj_on_of_nodup_map hcsN hcn hcn2 ?_
                rw [← hcid, tobj, hid2]
              rw [this]
              exact tpres
            · push_neg at hm
              have := hfreshj hm
              subst this
              exact absurd hcid.symm (hm cn hcn)
          · intro c hc i hi
            have hc2 : c ∈ cs2 := hc
            obtain ⟨j, x, hx, hj, hfreshj⟩ := hposfacts c hc2
            by_cases hm : ∃ cn2 ∈ cnodes, cn2.id = x.1.id
            · obtain ⟨cn2, hcn2, hid2⟩ := hm
              obtain ⟨t, ht, tobj, tlvl, tsub, tpres, tfoc⟩ :=
                L3 j x hx cn2 hcn2 hid2
              rw [hj] at ht
              obtain rfl := Option.some.inj ht
              rcases mem_allItems_cases hi with rfl | ⟨c3, hc3, hic3⟩
              · exact hunf x (List.getElem?_mem hx) _ tobj tlvl
              · exact tsub c3 hc3 i hic3
            · push_neg at hm
              have := hfreshj hm
              subst this
              rw [allItems_freshLeaf] at hi
              rcases List.mem_cons.mp hi with rfl | hi2
              · exact hunf x (List.getElem?_mem hx) _ rfl rfl
              · simp at hi2
          · rcases L4 with h4 | h4
            · rw [h4]
              by_cases hsel : some obj.oid = selOid
              · rw [if_pos hsel]
                exact Or.inr hsel
              · rw [if_neg hsel]
                exact Or.inl rfl
            · exact Or.inr h4
          · intro o hsel hop hin
            obtain ⟨i, hi, hio⟩ := hin
            rcases mem_allItems_cases hi with rfl | ⟨c, hc, hic⟩
            · refine L5 o hsel ?_
              have h8 : item.obj.oid = o := hio
              have h7 : some obj.oid = selOid := by
                rw [hsel, ← h8, hiobj]
              rw [if_pos h7, h7]
              exact hsel
            · have hc2 : c ∈ cs2 := hc
              obtain ⟨j, x, hx, hj, hfreshj⟩ := hposfacts c hc2
              by_cases hm : ∃ cn2 ∈ cnodes, cn2.id = x.1.id
              · obtain ⟨cn2, hcn2, hid2⟩ := hm
                obtain ⟨t, ht, tobj, tlvl, tsub, tpres, tfoc⟩ :=
                  L3 j x hx cn2 hcn2 hid2
                rw [hj] at ht
                obtain rfl := Option.some.inj ht
                exact tfoc o hsel hop ⟨i, hic, hio⟩
              · push_neg at hm
                have := hfreshj hm
                subst this
                rw [allItems_freshLeaf] at hic
                rcases List.mem_cons.mp hic with rfl | hi2
                · -- a created-but-unmatched leaf cannot hold the previously
                  -- focused object: its object would have been a child of
                  -- the same parent in the previous tree, hence matched
                  exfalso
                  obtain ⟨old, holdmem, holdoid⟩ := hop
                  have hio2 : x.1.oid = o := hio
                  have hx1comb : x.1 ∈ obj.combined :=
                    (expandTreeItem_mem (List.getElem?_mem hx)).1
                  have hx1desc : x.1 ∈ descList root.obj :=
                    descList_trans hdesc hx1comb
                  have holddesc : old.obj ∈ descList root.obj :=
                    obj_mem_descList hcons old holdmem
                  have hoeq : old.obj = x.1 :=
                    hgood.2.1 old.obj holddesc x.1 hx1desc
                      (by rw [holdoid, hio2])
                  rcases mem_allItems_parent holdmem with rfl | ⟨Y, hY, holdY⟩
                  · exact hgood.2.2.2 obj hdesc x.1 hx1comb
                      (by rw [← hoeq])
                  · have h8 : old.obj ∈ Y.obj.combined := hcons Y hY old holdY
                    have h9 : Y.obj ∈ descList root.obj :=
                      obj_mem_descList hcons Y hY
                    have hYobj : Y.obj = obj :=
                      hgood.2.2.1 Y.obj h9 obj hdesc old.obj h8 x.1 hx1comb
                        (by rw [hoeq])
                    have hYold : Y = oldIt :=
                      hnd Y hY oldIt holdIt (by rw [hYobj, ← hobj])
                    rw [hYold] at holdY
                    refine hm (buildTree old) ?_ ?_
                    · rw [hcnodes]
                      exact List.mem_map.mpr ⟨old, holdY, rfl⟩
                    · rw [buildTree_id, hoeq]
                · simp at hi2

/-- C1: snapshot/restore correctness of `__refreshTree`.  For a
well-formed tree state (childless items collapsed, sibling ids distinct,
the tree consistent with a well-formed object graph, no object shown
twice) whose focused object `selOid` is taken from the tree, if the
refresh completes, then: every node whose XNAT id is still produced by
re-expansion has the expanded/collapsed state recorded in the snapshot
(`Preserves`); every item of the rebuilt tree other than the root passes
the current filter patterns (so filtered-out nodes are absent); and the
previously focused object's item is re-focused whenever that object is
still present in the rebuilt tree. -/
theorem refreshTree_restores
    (cfg : FilterCfg) (selOid : Option Nat) (root root2 : TreeItem)
    (foc : Option Nat)
    (hwf : WfTree root) (hcons : ConsistentTree root) (hnd : NoDupObjs root)
    (hgood : GoodGraph root.obj)
    (hsel : ∀ o, selOid = some o → OldPresent root o)
    (hok : refreshTree cfg selOid root = .ok (root2, foc)) :
    Preserves (buildTree root) root2 ∧
    (∀ c ∈ root2.children, ∀ i ∈ allItems c, UnfilteredItem cfg i) ∧
    (∀ o, selOid = some o → (∃ i ∈ allItems root2, i.obj.oid = o) →
      foc = some o) := by
  have h := refresh_spec cfg selOid root hnd hcons hwf hgood
    (sizeOf (buildTree root) + 1) (buildTree root) (by omega)
    (TreeItem.mk root.obj root.level root.expanded []) root.obj none root2 foc
    hok rfl
    (fun _ => by rw [buildTree_expanded]; rfl)
    ⟨root, self_mem_allItems root, rfl, rfl⟩ rfl (self_mem_descList root.obj)
  obtain ⟨-, -, hpres, hunf, -, hfoc⟩ := h
  exact ⟨hpres, hunf, fun o ho hex => hfoc o ho (hsel o ho) hex⟩

/-- Concrete data for the C1 witness: a project with one subject. -/
def wChildObj : XnatObj := .mk 1 "s1" "" "S1" "" "" []

def wRootObj : XnatObj := .mk 0 "p1" "P" "" "" "" [(Catt.subjects, [wChildObj])]

def wChild : TreeItem := .mk wChildObj .subject false []

def wRoot : TreeItem := .mk wRootObj .project true [wChild]

def wCfg : FilterCfg := ⟨"regexp", "", "", fun _ _ => true, fun _ _ => true⟩

/-- Witness for C1: refreshing a concrete one-subject tree (expanded
root, focus on the subject) leaves the expansion state, the shown items
and the focus as the claim states. -/
theorem refreshTree_restores_witness :
    Preserves (buildTree wRoot) wRoot ∧
    (∀ c ∈ wRoot.children, ∀ i ∈ allItems c, UnfilteredItem wCfg i) ∧
    (∀ o, (some 1 : Option Nat) = some o →
      (∃ i ∈ allItems wRoot, i.obj.oid = o) →
      (some 1 : Option Nat) = some o) := by
  have hallc : allItems wChild = [wChild] := by
    rw [allItems_eq]
    simp [wChild, TreeItem.children]
  have hall : allItems wRoot = [wRoot, wChild] := by
    rw [allItems_eq]
    simp [wRoot, TreeItem.children, hallc]
  have hdc : descList wChildObj = [wChildObj] := by
    rw [descList, List.attach_map_val]
    simp [wChildObj, XnatObj.combined, XnatObj.listings]
  have hdr : descList wRootObj = [wRootObj, wChildObj] := by
    rw [descList, List.attach_map_val]
    simp [wRootObj, XnatObj.combined, XnatObj.listings, hdc]
  have hcombr : wRootObj.combined = [wChildObj] := by
    simp [wRootObj, XnatObj.combined, XnatObj.listings]
  have hcombc : wChildObj.combined = [] := by
    simp [wChildObj, XnatObj.combined, XnatObj.listings]
  have hrobj : wRoot.obj = wRootObj := rfl
  have hwf : WfTree wRoot := by
    intro i hi
    rw [hall] at hi
    simp only [List.mem_cons, List.not_mem_nil, or_false] at hi
    rcases hi with rfl | rfl
    · exact ⟨fun h => absurd h (by simp [wRoot, TreeItem.children]),
        by simp [wRoot, wChild, wChildObj, TreeItem.children, TreeItem.obj,
          XnatObj.id]⟩
    · exact ⟨fun _ => rfl, by simp [wChild, TreeItem.children]⟩
  have hcons : ConsistentTree wRoot := by
    intro i hi c hc
    rw [hall] at hi
    simp only [List.mem_cons, List.not_mem_nil, or_false] at hi
    rcases hi with rfl | rfl
    · simp only [wRoot, TreeItem.children, List.mem_cons, List.not_mem_nil,
        or_false] at hc
      subst hc
      rw [hrobj, hcombr]
      simp [wChild, TreeItem.obj]
    · simp [wChild, TreeItem.children] at hc
  have hnd : NoDupObjs wRoot := by
    intro a ha b hb h
    rw [hall] at ha hb
    simp only [List.mem_cons, List.not_mem_nil, or_false] at ha hb
    rcases ha with rfl | rfl <;> rcases hb with rfl | rfl
    · rfl
    · exact absurd h (by simp [wRoot, wChild, wRootObj, wChildObj,
        TreeItem.obj, XnatObj.oid])
    · exact absurd h (by simp [wRoot, wChild, wRootObj, wChildObj,
        TreeItem.obj, XnatObj.oid])
    · rfl
  have hgood : GoodGraph wRoot.obj := by
    rw [hrobj]
    refine ⟨?_, ?_, ?_, ?_⟩
    · intro a ha
      rw [hdr] at ha
      simp only [List.mem_cons, List.not_mem_nil, or_false] at ha
      rcases ha with rfl | rfl
      · rw [hcombr]
        simp
      · rw [hcombc]
        simp
    · intro a ha b hb h
      rw [hdr] at ha hb
      simp only [List.mem_cons, List.not_mem_nil, or_false] at ha hb
      rcases ha with rfl | rfl <;> rcases hb with rfl | rfl
      · rfl
      · exact absurd h (by simp [wRootObj, wChildObj, XnatObj.oid])
      · exact absurd h (by simp [wRootObj, wChildObj, XnatObj.oid])
      · rfl
    · intro p hp q hq c hc c2 hc2 h
      rw [hdr] at hp hq
      simp only [List.mem_cons, List.not_mem_nil, or_false] at hp hq
      rcases hp with rfl | rfl <;> rcases hq with rfl | rfl
      · rfl
      · rw [hcombc] at hc2
        simp at hc2
      · rw [hcombc] at hc
        simp at hc
      · rfl
    · intro p hp c hc
      rw [hdr] at hp
      simp only [List.mem_cons, List.not_mem_nil, or_false] at hp
      rcases hp with rfl | rfl
      · rw [hcombr] at hc
        simp only [List.mem_cons, List.not_mem_nil, or_false] at hc
        subst hc
        simp [wRootObj, wChildObj, XnatObj.oid]
      · rw [hcombc] at hc
        simp at hc
  have hsel : ∀ o, (some 1 : Option Nat) = some o → OldPresent wRoot o := by
    intro o ho
    obtain rfl : (1 : Nat) = o := Option.some.inj ho
    exact ⟨wChild, by rw [hall]; simp, rfl⟩
  have hok : refreshTree wCfg (some 1) wRoot = .ok (wRoot, some 1) := by
    simp [refreshTree, refresh, refreshKids, buildTree, expandTreeItem,
      expandGo, expandCatt, filterItem, stripIsEmpty, XNAT_HIERARCHY,
      XNAT_NAME_ATT, buildIdx, lookupIdx, XnatObj.getListing, assocLookup,
      Catt.singular, XnatObj.oid, XnatObj.id, XnatObj.label, XnatObj.listings,
      XnatObj.name, wRoot, wChild, wRootObj, wChildObj, wCfg, TreeItem.obj,
      TreeItem.level, TreeItem.expanded, TreeItem.children, Except.map,
      TreeNode.id, TreeNode.children, TreeNode.expanded, freshLeaf]
  exact refreshTree_restores wCfg (some 1) wRoot wRoot (some 1)
    hwf hcons hnd hgood hsel hok

end Wxnat
